import Mathlib

/-!
Shallow embedding of the `streamjson` header-only C++ library
(first generation of `streamjson.hpp`: `JsonValue`, `JSONListener`,
`FilterListener`, `StreamJson`, `AutofeedStreamJson`).

Modelling conventions:
* Byte buffers are `List Char`; a pointer into a buffer is a `Nat` index.
  Reading memory is `List.getD` with the NUL character as default, standing
  for the zero-initialised / unmapped bytes that lie past the modelled data.
* `size_t` and `int64_t` arithmetic stays in `Nat`/`Int`/`ℚ`; the C++
  `double` accumulator of `parse_number` is modelled as `ℚ` (all claims
  proved about it only involve exact values: signs and zero).
* Operations whose C++ execution is undefined (calling `back()`/`pop_back()`
  on an empty `std::vector`, constructing a value from a null pointer,
  letting a scan loop run past a buffer with no terminator, a `size_t`
  subtraction that would wrap) are modelled as `Option.none`.
-/

/-- The NUL character, the model's content for unwritten / out-of-range bytes. -/
def nulChar : Char := Char.ofNat 0

/-- `JsonValue::Type` plus its payload (`streamjson.hpp` lines 33-52):
a tagged value with string, floating, integer, boolean and invalid states. -/
inductive JsonValue where
  | str (s : List Char)
  | floating (q : ℚ)
  | integer (n : ℤ)
  | boolean (b : Bool)
  | invalid
deriving DecidableEq

/-- Truncation of a rational toward zero, the effect of the C++ cast
`int64_t(double)` in `JsonValue::parse_number` (line 211). `Int.tdiv` is
T-division, matching C++'s round-toward-zero. -/
def ratTrunc (q : ℚ) : ℤ := Int.tdiv q.num (q.den : ℤ)

/-- `JsonValue::parse_string` (lines 84-119): scan indices `0..size`
(INCLUSIVE: the C++ loop condition is `i <= size`, so the byte one past the
declared span is examined) for a first and a second double quote; on success
the content strictly between them. -/
def parse_string (data : List Char) (size : Nat) : Option (List Char) :=
  match (List.range (size + 1)).find? (fun i => data.getD i nulChar == '"') with
  | none => none
  | some i1 =>
    match (List.range' (i1 + 1) (size - i1)).find? (fun i => data.getD i nulChar == '"') with
    | none => none
    | some i2 => some ((data.drop (i1 + 1)).take (i2 - i1 - 1))

/-- The span scanned by `parse_boolean`/`parse_number` after the shared
leading-space skip loop (`while (*data == ' ' && size > 0)`,
lines 127-131 and 162-166). -/
def spanChars (data : List Char) (size : Nat) : List Char :=
  (data.take size).dropWhile (fun c => c = ' ')

/-- One literal test of `JsonValue::parse_boolean` (line 138):
`size >= strlen(lit) && strncmp(data, lit, strlen(lit)) == 0`. -/
def boolLit (r lit : List Char) : Bool :=
  decide (lit.length ≤ r.length) && lit.isPrefixOf r

/-- `JsonValue::parse_boolean` (lines 121-148): after skipping leading
spaces, try the six casings in declaration order, prefix-matching. -/
def parse_boolean (data : List Char) (size : Nat) : Option Bool :=
  let r := spanChars data size
  if boolLit r "true".toList then some true
  else if boolLit r "false".toList then some false
  else if boolLit r "True".toList then some true
  else if boolLit r "False".toList then some false
  else if boolLit r "TRUE".toList then some true
  else if boolLit r "FALSE".toList then some false
  else none

/-- Accumulator of `JsonValue::parse_number` (lines 155-158). -/
structure NumAcc where
  number : ℚ
  negative : Bool
  decimal : Bool
  decimalPos : ℚ
deriving DecidableEq

/-- Initial accumulator: `number = 0`, flags clear, `decimal_pos = 0.1`. -/
def numInit : NumAcc := ⟨0, false, false, 1 / 10⟩

/-- Numeric value of a digit character. -/
def digitVal (c : Char) : ℚ := ((c.toNat - '0'.toNat : Nat) : ℚ)

/-- One iteration of the scan loop of `parse_number` (lines 168-199):
`-` anywhere sets the negative flag, `.` sets the decimal flag, digits
accumulate, a space is skipped, anything else is an error (`none`). -/
def numStep (acc : NumAcc) (c : Char) : Option NumAcc :=
  if c = '-' then some { acc with negative := true }
  else if c = '.' then some { acc with decimal := true }
  else if '0' ≤ c ∧ c ≤ '9' then
    if acc.decimal then
      some { acc with number := acc.number + digitVal c * acc.decimalPos,
                      decimalPos := acc.decimalPos * (1 / 10) }
    else
      some { acc with number := acc.number * 10 + digitVal c }
  else if c = ' ' then some acc
  else none

/-- The scan loop of `parse_number`, with early exit on error. -/
def numScan : List Char → NumAcc → Option NumAcc
  | [], acc => some acc
  | c :: cs, acc =>
    match numStep acc c with
    | none => none
    | some acc2 => numScan cs acc2

/-- `JsonValue::parse_number` (lines 150-217): scan the span after the
leading-space skip; on success an `INTEGER` (truncated toward zero) when no
decimal point was seen, a `FLOATING` otherwise, negated when a `-` was seen. -/
def parse_number (data : List Char) (size : Nat) : Option JsonValue :=
  match numScan (spanChars data size) numInit with
  | none => none
  | some acc =>
    if acc.decimal then
      some (JsonValue.floating (if acc.negative then -acc.number else acc.number))
    else
      some (JsonValue.integer (ratTrunc (if acc.negative then -acc.number else acc.number)))

/-- The `JsonValue(const char *, size_t)` constructor (lines 54-64): try
`parse_string`, then `parse_number`, then `parse_boolean` (this is the order
written in the source), `INVALID` if all fail. -/
def classify (data : List Char) (size : Nat) : JsonValue :=
  match parse_string data size with
  | some s => JsonValue.str s
  | none =>
    match parse_number data size with
    | some v => v
    | none =>
      match parse_boolean data size with
      | some b => JsonValue.boolean b
      | none => JsonValue.invalid

/-- Modelled from the spec's words for comparison with `classify`: the
classifier attempt order as the specification states it — (1) quoted string,
(2) boolean literal, (3) number. -/
def classifyClaimOrder (data : List Char) (size : Nat) : JsonValue :=
  match parse_string data size with
  | some s => JsonValue.str s
  | none =>
    match parse_boolean data size with
    | some b => JsonValue.boolean b
    | none =>
      match parse_number data size with
      | some v => v
      | none => JsonValue.invalid

/-- `true` on values that are strictly negative numbers. -/
def jvNegative : JsonValue → Bool
  | JsonValue.integer n => decide (n < 0)
  | JsonValue.floating q => decide (q < 0)
  | _ => false

/-- `true` on values that are non-positive numbers. -/
def jvNonpos : JsonValue → Bool
  | JsonValue.integer n => decide (n ≤ 0)
  | JsonValue.floating q => decide (q ≤ 0)
  | _ => false

/-! ## The structural state machine (`StreamJson`, lines 488-696) -/

/-- `StreamJson::Token` (lines 652-662). -/
inductive Token where
  | objectStart | objectEnd | arrayStart | arrayEnd | quote | colon | comma | tNone
deriving DecidableEq

/-- `StreamJson::get_token` (lines 675-686), via the token map of lines
665-673: a single byte classifies to a structural token or `NONE`. -/
def get_token (c : Char) : Token :=
  if c = '{' then Token.objectStart
  else if c = '}' then Token.objectEnd
  else if c = '[' then Token.arrayStart
  else if c = ']' then Token.arrayEnd
  else if c = '"' then Token.quote
  else if c = ':' then Token.colon
  else if c = ',' then Token.comma
  else Token.tNone

/-- `StreamJson::State` (lines 645-650). -/
inductive StState where
  | inObject | inArray | inString
deriving DecidableEq

/-- The listener events of `IJSONListener` (lines 225-234), with the
payloads the state machine computes at emission time. -/
inductive Event where
  | objectStart | objectEnd | arrayStart | arrayEnd | arrayNext
  | key (k : List Char)
  | value (v : JsonValue)
deriving DecidableEq

/-- The mutable state of `StreamJson` (lines 692-695): the nesting stack
(modelled head-first: `head = back()` of the `std::vector`), the
`after_colon_` flag, and the pending-value span as an optional start index
plus a length. -/
structure SJState where
  stack : List StState
  afterColon : Bool
  valueStart : Option Nat
  valueSize : Nat
deriving DecidableEq

/-- A fresh `StreamJson` (also the result of `reset`, lines 633-641). -/
def initSJ : SJState := ⟨[], false, none, 0⟩

/-- One iteration of the byte loop of `StreamJson::feed` (lines 508-625)
for the byte at index `i` of `buffer`. `none` models undefined behaviour:
`state_stack_.back()` on an empty stack (the `QUOTE`, `OBJECT_END`,
`ARRAY_END` and `COMMA` cases all read the back of the stack without an
emptiness check) and constructing a value from a null `value_start_`. -/
def stepChar (buffer : List Char) (i : Nat) (s : SJState) : Option (SJState × List Event) :=
  let c := buffer.getD i nulChar
  let t := get_token c
  let sz := s.valueSize + 1
  -- while inside a string literal every byte but a quote is swallowed
  if s.stack.head? = some StState.inString ∧ t ≠ Token.quote then
    some ({ s with valueSize := sz }, [])
  else
    match t with
    | Token.quote =>
      match s.stack with
      | [] => none
      | StState.inString :: rest =>
        match s.valueStart with
        | none => none
        | some v =>
          if s.afterColon then
            some ({ stack := rest, afterColon := false, valueStart := none, valueSize := 0 },
                  [Event.value (classify (buffer.drop v) sz)])
          else
            some ({ stack := rest, afterColon := s.afterColon, valueStart := none, valueSize := 0 },
                  [Event.key ((buffer.drop (v + 1)).take (sz - 1))])
      | _ :: _ =>
        some ({ s with stack := StState.inString :: s.stack, valueStart := some i, valueSize := 0 }, [])
    | Token.objectStart =>
      some ({ s with afterColon := false, stack := StState.inObject :: s.stack, valueSize := sz },
            [Event.objectStart])
    | Token.objectEnd =>
      match (if s.afterColon then
               s.valueStart.map (fun v => [Event.value (classify (buffer.drop v) (sz - 1))])
             else some []) with
      | none => none
      | some evs1 =>
        match s.stack with
        | [] => none
        | top :: rest =>
          if top = StState.inObject then
            some ({ stack := rest, afterColon := false, valueStart := none, valueSize := 0 },
                  evs1 ++ [Event.objectEnd])
          else
            some ({ stack := top :: rest, afterColon := false, valueStart := none, valueSize := 0 },
                  evs1)
    | Token.arrayStart =>
      some ({ s with afterColon := false, stack := StState.inArray :: s.stack,
                     valueStart := some (i + 1), valueSize := 0 },
            [Event.arrayStart])
    | Token.arrayEnd =>
      let flushed : List Event × Option Nat × Nat :=
        match s.valueStart with
        | some v => ([Event.value (classify (buffer.drop v) (sz - 1))], none, 0)
        | none => ([], none, sz)
      match s.stack with
      | [] => none
      | top :: rest =>
        if top = StState.inArray then
          some ({ stack := rest, afterColon := false,
                  valueStart := flushed.2.1, valueSize := flushed.2.2 },
                flushed.1 ++ [Event.arrayEnd])
        else
          some ({ stack := top :: rest, afterColon := false,
                  valueStart := flushed.2.1, valueSize := flushed.2.2 },
                flushed.1)
    | Token.colon =>
      some ({ s with afterColon := true, valueStart := some (i + 1), valueSize := 0 }, [])
    | Token.comma =>
      match s.stack with
      | [] => none
      | top :: _ =>
        if s.afterColon then
          match s.valueStart with
          | none => none
          | some v =>
            some ({ s with afterColon := false, valueStart := none, valueSize := 0 },
                  [Event.value (classify (buffer.drop v) (sz - 1))] ++
                    (if top = StState.inArray then [Event.arrayNext] else []))
        else
          match top, s.valueStart with
          | StState.inArray, some v =>
            some ({ s with afterColon := false, valueStart := some (i + 1), valueSize := 0 },
                  [Event.value (classify (buffer.drop v) (sz - 1)), Event.arrayNext])
          | _, _ =>
            some ({ s with afterColon := false, valueSize := sz },
                  if top = StState.inArray then [Event.arrayNext] else [])
    | Token.tNone =>
      some ({ s with valueSize := sz }, [])

/-- The byte loop of `feed`, iterating `stepChar` from index `i` for `r`
more bytes, concatenating the emitted events. -/
def feedGo (buffer : List Char) : Nat → Nat → SJState → Option (SJState × List Event)
  | 0, _, s => some (s, [])
  | r + 1, i, s =>
    match stepChar buffer i s with
    | none => none
    | some (s1, evs1) =>
      match feedGo buffer r (i + 1) s1 with
      | none => none
      | some (s2, evs2) => some (s2, evs1 ++ evs2)

/-- `StreamJson::feed(chunk, size, offset)` (lines 500-631): the
`offset != 0` prologue re-anchors the pending span to the buffer start
(there is no such re-anchoring when `offset == 0`), then the byte loop runs
from `offset` to `size`; the returned `Nat` is `allow_to_remove`
(lines 627-630): the pending span's start, or `size` when none is pending. -/
def feed (buffer : List Char) (size offset : Nat) (s : SJState) :
    Option (SJState × List Event × Nat) :=
  let s0 := if offset ≠ 0 then { s with valueStart := some 0, valueSize := offset - 1 } else s
  match feedGo buffer (size - offset) offset s0 with
  | none => none
  | some (s1, evs) =>
    some (s1, evs, match s1.valueStart with | some v => v | none => size)

/-! ## The JSON path aggregator and filter (`JSONListener`, `FilterListener`) -/

/-- State of `JSONListener` (lines 324-327): the pending key, the
aggregated dotted path, and the array-index stack (in `std::vector` order:
last element is `back()`). -/
structure ListenerState where
  key : List Char
  aggregateKey : List Char
  arrayDepth : List Nat
deriving DecidableEq

/-- A freshly constructed listener. -/
def initListener : ListenerState := ⟨[], [], []⟩

/-- Index of the last occurrence of `c` in `l` (`std::string::rfind`). -/
def rfindIdx (l : List Char) (c : Char) : Option Nat :=
  match l.reverse.findIdx? (fun x => x = c) with
  | none => none
  | some j => some (l.length - 1 - j)

/-- The segment-append step shared by `on_object_start` (lines 243-256) and
`on_array_start` (lines 271-289): a dot separator when the aggregate is
non-empty, then the pending key or the `_` placeholder. -/
def appendSegment (agg key : List Char) : List Char :=
  (agg ++ (if agg = [] then [] else ['.'])) ++ (if key = [] then ['_'] else key)

/-- The trailing-segment trim shared by `on_object_end` (lines 258-269) and
`on_array_end` (lines 291-304): truncate at the last dot, or clear. -/
def trimSegment (agg : List Char) : List Char :=
  match rfindIdx agg '.' with
  | some p => agg.take p
  | none => []

/-- Decimal digits of a natural number as characters. -/
def natChars (n : Nat) : List Char := (Nat.repr n).toList

/-- The index rewrite of `on_array_next_element` (lines 306-310):
`substr(0, rfind("["))` (the whole string when there is no bracket — that is
what `substr(0, npos)` yields) followed by the new bracketed index. -/
def bumpIndex (agg : List Char) (n : Nat) : List Char :=
  (match rfindIdx agg '[' with
   | some p => agg.take p
   | none => agg) ++ '[' :: natChars n ++ [']']

/-- First index at which the two-character pattern `_.` occurs
(`std::string::find("_.")`). -/
def findUD (l : List Char) : Option Nat :=
  (List.range l.length).find?
    (fun i => (l.getD i nulChar == '_') && (l.getD (i + 1) nulChar == '.'))

/-- The find-and-remove loop of `FilterListener::on_value` (lines 349-354),
with fuel: each removal deletes two characters, so `l.length` rounds always
suffice and the fuel never runs out before `findUD` returns `none`. -/
def removeUDFuel : Nat → List Char → List Char
  | 0, l => l
  | fuel + 1, l =>
    match findUD l with
    | none => l
    | some i => removeUDFuel fuel (l.take i ++ l.drop (i + 2))

/-- Normalisation of the query path: remove every `_.` occurrence. -/
def removeUD (l : List Char) : List Char := removeUDFuel l.length l

/-- The scan `while (*ptr != ']') ptr++` of lines 369-377: the first `]` at
or after index `i`. When the string holds no further `]` the C++ loop runs
past the buffer (undefined behaviour): `none`. -/
def skipToRB (s : List Char) (i : Nat) : Option Nat :=
  (List.range' i (s.length - i)).find? (fun j => s.getD j nulChar == ']')

/-- The matching loop of `FilterListener::on_value` (lines 356-393), with
fuel: the filter index strictly increases every iteration, so `f.length`
rounds suffice, and fuel exhaustion coincides with the loop's own exit
condition `filter_ptr >= end` (which leaves `matched == true`). Reading one
past either string models `c_str()`'s NUL terminator via `getD`'s default. -/
def fmLoop (f q : List Char) : Nat → Nat → Nat → Option Bool
  | 0, _, _ => some true
  | fuel + 1, fi, qi =>
    if fi < f.length ∧ qi < q.length then
      let fc := f.getD fi nulChar
      let qc := q.getD qi nulChar
      if fc = '[' ∧ qc = '[' then
        if f.getD (fi + 1) nulChar = '*' then
          match skipToRB f fi, skipToRB q qi with
          | some j, some k => fmLoop f q fuel (j + 1) (k + 1)
          | _, _ => none
        else fmLoop f q fuel (fi + 1) (qi + 1)
      else if fc = qc ∨ fc = '*' then fmLoop f q fuel (fi + 1) (qi + 1)
      else some false
    else some true

/-- The whole pattern match of `FilterListener::on_value`: character-wise
loop from the start of both strings. -/
def filterMatches (f q : List Char) : Option Bool := fmLoop f q f.length 0 0

/-- The character-wise compatibility of a pattern prefix with a query
prefix, up to the shorter of the two: equal characters or a `*` in the
pattern. Used to characterise `filterMatches` on bracket-free patterns. -/
def prefixCompat : List Char → List Char → Bool
  | [], _ => true
  | _ :: _, [] => true
  | a :: as, b :: bs => (a = b ∨ a = '*') && prefixCompat as bs

/-- One callback invocation recorded by a `FilterListener`: the normalised
query path, the value, and a snapshot of the array-index stack. -/
structure CallRec where
  path : List Char
  value : JsonValue
  depths : List Nat
deriving DecidableEq

/-- One event dispatched to a `FilterListener` (which inherits the
`JSONListener` handlers of lines 241-328 and overrides `on_value`,
lines 345-401). `none` models `pop_back()`/`back()` on an empty
`array_depth_` vector and a runaway bracket scan in the matcher. -/
def listenerStep (filter : List Char) (L : ListenerState) (e : Event) :
    Option (ListenerState × List CallRec) :=
  match e with
  | Event.objectStart =>
    some ({ L with aggregateKey := appendSegment L.aggregateKey L.key, key := [] }, [])
  | Event.objectEnd =>
    some ({ L with aggregateKey := trimSegment L.aggregateKey }, [])
  | Event.arrayStart =>
    some ({ key := [],
            aggregateKey := appendSegment L.aggregateKey L.key ++ '[' :: natChars 0 ++ [']'],
            arrayDepth := L.arrayDepth ++ [0] }, [])
  | Event.arrayEnd =>
    match L.arrayDepth with
    | [] => none
    | _ :: _ =>
      some ({ L with arrayDepth := L.arrayDepth.dropLast,
                     aggregateKey := trimSegment L.aggregateKey }, [])
  | Event.arrayNext =>
    match L.arrayDepth.getLast? with
    | none => none
    | some d =>
      some ({ L with arrayDepth := L.arrayDepth.dropLast ++ [d + 1],
                     aggregateKey := bumpIndex L.aggregateKey (d + 1) }, [])
  | Event.key k => some ({ L with key := k }, [])
  | Event.value v =>
    let query := removeUD (L.aggregateKey ++ '.' :: L.key)
    match filterMatches filter query with
    | none => none
    | some m =>
      some ({ L with key := [] },
            if m then [⟨query, v, L.arrayDepth⟩] else [])

/-- Dispatch a list of events to a `FilterListener`, collecting callbacks. -/
def runListenerGo (filter : List Char) : List Event → ListenerState →
    Option (ListenerState × List CallRec)
  | [], L => some (L, [])
  | e :: es, L =>
    match listenerStep filter L e with
    | none => none
    | some (L1, c1) =>
      match runListenerGo filter es L1 with
      | none => none
      | some (L2, c2) => some (L2, c1 ++ c2)

/-- End-to-end run: a single `StreamJson::feed` over a whole document,
wired to a `FilterListener` on `filter`, returning the callback log. -/
def pipeline (filter doc : List Char) : Option (List CallRec) :=
  match feed doc doc.length 0 initSJ with
  | none => none
  | some (_, evs, _) =>
    match runListenerGo filter evs initListener with
    | none => none
    | some (_, calls) => some calls

/-! ## The bounded chunk assembler (`AutofeedStreamJson`, lines 703-753) -/

/-- Overwrite `l` from position `pos` with `src` (the effect of
`memcpy(l + pos, src, |src|)` on an unbounded byte store; bounds are
accounted separately by `autofeedWriteOk`). -/
def listWrite (l : List Char) (pos : Nat) (src : List Char) : List Char :=
  l.take pos ++ List.replicate (pos - l.length) nulChar ++ src ++ l.drop (pos + src.length)

/-- State of `AutofeedStreamJson<CHUNK_SIZE>` (lines 750-752) together with
the inherited `StreamJson` state. -/
structure AutoState where
  buffer : List Char
  nextOffset : Nat
  failed : Bool
  js : SJState
deriving DecidableEq

/-- A freshly constructed assembler with a zero-initialised carry buffer of
`cap` bytes (the C++ buffer is an uninitialised `std::array<char, CHUNK_SIZE>`;
the model fixes its stale content to NUL). -/
def autoInit (cap : Nat) : AutoState := ⟨List.replicate cap nulChar, 0, false, initSJ⟩

/-- `AutofeedStreamJson::feed(chunk, size)` (lines 717-739): when not
failed, memcpy the chunk after the retained bytes, run the inner
`StreamJson::feed` from `next_offset_`, memmove the unconsumed tail plus one
extra byte to the front, and set the sticky `failed_` flag when the retained
tail reaches the capacity. `none` models the inner feed's undefined
behaviour and the `size_t` wrap of `size - to_remove` when `to_remove`
exceeds the buffer's filled size. -/
def autofeed (cap : Nat) (s : AutoState) (chunk : List Char) :
    Option (AutoState × List Event) :=
  if s.failed then some (s, [])
  else
    let b1 := listWrite s.buffer s.nextOffset chunk
    let total := chunk.length + s.nextOffset
    match feed b1 total s.nextOffset s.js with
    | none => none
    | some (js1, evs, toRemove) =>
      if toRemove ≤ total then
        let b2 := listWrite b1 0 ((b1.drop toRemove).take (total - toRemove + 1))
        some ({ buffer := b2, nextOffset := total - toRemove,
                failed := decide (cap ≤ total - toRemove), js := js1 }, evs)
      else none

/-- `AutofeedStreamJson::reset` (lines 741-746): clear the inherited parser
state, the retained length and the failure flag (the buffer bytes are not
touched). -/
def autoReset (s : AutoState) : AutoState :=
  { s with js := initSJ, nextOffset := 0, failed := false }

/-- Bounds accounting for one `AutofeedStreamJson::feed` call: `true` iff
every byte written (the `memcpy` of the chunk at `next_offset_`, and the
`memmove` of the `total - to_remove + 1` tail bytes to the front) lands
within the `cap`-byte carry buffer, and the `memmove` length does not wrap.
A failed call writes nothing. -/
def autofeedWriteOk (cap : Nat) (s : AutoState) (chunk : List Char) : Bool :=
  if s.failed then true
  else
    let b1 := listWrite s.buffer s.nextOffset chunk
    let total := chunk.length + s.nextOffset
    decide (s.nextOffset + chunk.length ≤ cap) &&
      match feed b1 total s.nextOffset s.js with
      | none => true
      | some (_, _, toRemove) =>
        decide (toRemove ≤ total) && decide (total - toRemove + 1 ≤ cap)

/-- Feed a list of chunks through the assembler, concatenating events. -/
def autofeedRun (cap : Nat) : AutoState → List (List Char) → Option (AutoState × List Event)
  | s, [] => some (s, [])
  | s, c :: cs =>
    match autofeed cap s c with
    | none => none
    | some (s1, evs1) =>
      match autofeedRun cap s1 cs with
      | none => none
      | some (s2, evs2) => some (s2, evs1 ++ evs2)

/-- Events of a single whole-document `StreamJson::feed`. -/
def singleFeedEvents (doc : List Char) : Option (List Event) :=
  match feed doc doc.length 0 initSJ with
  | none => none
  | some (_, evs, _) => some evs

/-- Events of feeding chunks through a fresh `AutofeedStreamJson<cap>`. -/
def chunkedFeedEvents (cap : Nat) (chunks : List (List Char)) : Option (List Event) :=
  match autofeedRun cap (autoInit cap) chunks with
  | none => none
  | some (_, evs) => some evs

/-- The document `{"a":1}` used to exercise the resumption contract. -/
def docAB : List Char := ['{', '"', 'a', '"', ':', '1', '}']

/-- Its first chunk, ending exactly at the colon. -/
def chunkA : List Char := ['{', '"', 'a', '"', ':']

/-- Its second chunk. -/
def chunkB : List Char := ['1', '}']

/-- The document `{"a":{"b":[1,2,3]}}` of the round-trip property. -/
def docRT : List Char :=
  ['{', '"', 'a', '"', ':', '{', '"', 'b', '"', ':', '[',
   '1', ',', '2', ',', '3', ']', '}', '}']

/-- The filter pattern of the round-trip property. -/
def patRT : List Char := "a.b[*]".toList

/-- Facts maintained by the scan loop of `parse_number`: the accumulated
magnitude is non-negative, the decimal weight is non-negative, and in
integer mode the magnitude is a natural number. -/
def NumInv (acc : NumAcc) : Prop :=
  0 ≤ acc.number ∧ 0 ≤ acc.decimalPos ∧
    (acc.decimal = false → ∃ m : ℕ, acc.number = (m : ℚ))

/-! ## Theorems -/

unseal Rat.add Rat.mul Rat.inv in
/-- C1. Chunk-invariance fails on this code: the document `{"a":1}` cut
after the colon yields a different event sequence through
`AutofeedStreamJson<16>` than one whole-document `StreamJson::feed`.
When a chunk ends exactly at a colon, `feed` reports everything consumed
and the next call runs with `offset == 0`, which does not re-anchor the
still-pending `value_start_`; the value is then built from stale buffer
bytes instead of the new chunk, so the third event is `INVALID` instead of
`Integer 1`. -/
theorem c1_chunk_divergence :
    chunkA ++ chunkB = docAB ∧
    singleFeedEvents docAB =
      some [Event.objectStart, Event.key ['a'],
            Event.value (JsonValue.integer 1), Event.objectEnd] ∧
    chunkedFeedEvents 16 [chunkA, chunkB] =
      some [Event.objectStart, Event.key ['a'],
            Event.value JsonValue.invalid, Event.objectEnd] ∧
    singleFeedEvents docAB ≠ chunkedFeedEvents 16 [chunkA, chunkB] :=
  ⟨rfl, by decide, by decide, by decide⟩

unseal Rat.add Rat.mul Rat.inv in
/-- C5 counterexample. On `{"a":{"b":[1,2,3]}}` with pattern `a.b[*]` the
three callback paths all carry a trailing dot — the first is `a.b[0].`,
which differs from the claimed `a.b[0]`. -/
theorem c5_counterexample :
    (pipeline patRT docRT).map (fun l => l.map CallRec.path) =
      some ["a.b[0].".toList, "a.b[1].".toList, "a.b[2].".toList] ∧
    "a.b[0].".toList ≠ "a.b[0]".toList :=
  ⟨by decide, by decide⟩

unseal Rat.add Rat.mul Rat.inv in
/-- C5 amended. Feeding `{"a":{"b":[1,2,3]}}` to a `StreamJson` wired to a
`FilterListener` with pattern `a.b[*]` invokes the callback exactly three
times, in order with values Integer 1, 2, 3 and index stacks [0], [1], [2],
with path argument `a.b[0].`, `a.b[1].`, `a.b[2].` — each carrying a
trailing dot because the query is built as `aggregate_key_ + "." + key_`
with an empty pending key. -/
theorem c5_round_trip :
    pipeline patRT docRT =
      some [⟨"a.b[0].".toList, JsonValue.integer 1, [0]⟩,
            ⟨"a.b[1].".toList, JsonValue.integer 2, [1]⟩,
            ⟨"a.b[2].".toList, JsonValue.integer 3, [2]⟩] := by decide

/-- C3 counterexample. A closing brace arriving on an empty nesting stack
makes `StreamJson::feed` evaluate `state_stack_.back()` on an empty
`std::vector` — an out-of-bounds access (`none` in the model), so feed does
not "never access the stack out of bounds" on every byte sequence. -/
theorem c3_counterexample : feed ['}'] 1 0 initSJ = none := by decide

/-- C2 counterexample. The matcher loop stops as soon as either string is
exhausted and never requires simultaneous exhaustion: pattern `a.*` matches
the shorter query `a` and also the longer query `a.b.c`, both of which the
claim says it must not match. -/
theorem c2_counterexample :
    filterMatches "a.*".toList "a".toList = some true ∧
    filterMatches "a.*".toList "a.b.c".toList = some true :=
  ⟨by decide, by decide⟩

/-- C7 counterexample. The span `-` is accepted by the numeric parse and a
`-` is present, yet the result is Integer 0, which is not negative: a `-`
does not always make the value negative. -/
theorem c7_counterexample :
    parse_number ['-'] 1 = some (JsonValue.integer 0) ∧
    classify ['-'] 1 = JsonValue.integer 0 ∧
    jvNegative (JsonValue.integer 0) = false :=
  ⟨by decide, by decide, by decide⟩

/-- C10 counterexample. A five-byte chunk fed to a fresh
`AutofeedStreamJson<4>` makes the initial `memcpy` write past the four-byte
carry buffer (the capacity check runs only after the writes), so the
claimed "bounded writes for all chunk sizes" is false. -/
theorem c10_counterexample :
    autofeedWriteOk 4 (autoInit 4) ['1', '2', '3', '4', '5'] = false := by decide

/-- The characters accepted by one step of the numeric scan loop. -/
theorem numStep_char_mem {acc : NumAcc} {c : Char} {acc2 : NumAcc}
    (h : numStep acc c = some acc2) :
    c = '-' ∨ c = '.' ∨ ('0' ≤ c ∧ c ≤ '9') ∨ c = ' ' := by
  by_contra hc
  push_neg at hc
  obtain ⟨h1, h2, h3, h4⟩ := hc
  unfold numStep at h
  rw [if_neg h1, if_neg h2, if_neg (fun hand => absurd hand.2 (not_le.mpr (h3 hand.1))),
      if_neg h4] at h
  exact absurd h (by simp)

/-- A literal whose head differs from the span's head never prefix-matches. -/
theorem boolLit_cons_false {c l0 : Char} {cs ls lit : List Char}
    (hlit : lit = l0 :: ls) (hne : l0 ≠ c) : boolLit (c :: cs) lit = false := by
  subst hlit
  simp [boolLit, List.isPrefixOf, hne]

/-- If the numeric parse succeeds, the boolean parse fails: the first
scanned character of a numeric span can never start a boolean literal, and
an empty scanned span is shorter than every boolean literal. -/
theorem parse_number_some_boolean_none {data : List Char} {size : Nat} {v : JsonValue}
    (h : parse_number data size = some v) : parse_boolean data size = none := by
  unfold parse_number at h
  cases hscan : numScan (spanChars data size) numInit with
  | none => rw [hscan] at h; exact absurd h (by simp)
  | some acc =>
    cases hsp : spanChars data size with
    | nil => simp [parse_boolean, hsp, boolLit]
    | cons c cs =>
      rw [hsp] at hscan
      have hstep : ∃ acc1, numStep numInit c = some acc1 := by
        unfold numScan at hscan
        cases hns : numStep numInit c with
        | none => rw [hns] at hscan; exact absurd hscan (by simp)
        | some a1 => exact ⟨a1, rfl⟩
      obtain ⟨acc1, hstep⟩ := hstep
      have hc := numStep_char_mem hstep
      have ht : c ≠ 't' := fun hcc => by subst hcc; exact absurd hc (by decide)
      have hf : c ≠ 'f' := fun hcc => by subst hcc; exact absurd hc (by decide)
      have hT : c ≠ 'T' := fun hcc => by subst hcc; exact absurd hc (by decide)
      have hF : c ≠ 'F' := fun hcc => by subst hcc; exact absurd hc (by decide)
      simp only [parse_boolean, hsp]
      rw [show "true".toList = 't' :: ['r', 'u', 'e'] from rfl,
          show "false".toList = 'f' :: ['a', 'l', 's', 'e'] from rfl,
          show "True".toList = 'T' :: ['r', 'u', 'e'] from rfl,
          show "False".toList = 'F' :: ['a', 'l', 's', 'e'] from rfl,
          show "TRUE".toList = 'T' :: ['R', 'U', 'E'] from rfl,
          show "FALSE".toList = 'F' :: ['A', 'L', 'S', 'E'] from rfl,
          boolLit_cons_false rfl (Ne.symm ht), boolLit_cons_false rfl (Ne.symm hf),
          boolLit_cons_false rfl (Ne.symm hT), boolLit_cons_false rfl (Ne.symm hF),
          boolLit_cons_false rfl (Ne.symm hT), boolLit_cons_false rfl (Ne.symm hF)]
      simp

unseal Rat.add Rat.mul Rat.inv in
/-- C4. The classifier written in the source tries string, then number,
then boolean — but the numeric and boolean parses accept disjoint spans, so
the composite is extensionally the attempt order the specification states
(string, then boolean, then number); in particular the quoted span `"42"`
classifies as a string, not a number, and boolean literals classify as
booleans, never as numbers. -/
theorem c4_classifier_order :
    (∀ data size, classify data size = classifyClaimOrder data size) ∧
    classify "\"42\"".toList 4 = JsonValue.str "42".toList ∧
    classify "true".toList 4 = JsonValue.boolean true ∧
    classify "False".toList 5 = JsonValue.boolean false ∧
    classify "123".toList 3 = JsonValue.integer 123 := by
  refine ⟨?_, by decide, by decide, by decide, by decide⟩
  intro data size
  unfold classify classifyClaimOrder
  cases hs : parse_string data size with
  | some str => rfl
  | none =>
    cases hn : parse_number data size with
    | none => cases hb : parse_boolean data size <;> rfl
    | some v => rw [parse_number_some_boolean_none hn]

/-- Every successful `AutofeedStreamJson::feed` run either was a failed-state
no-op or came from a non-failed state and left `failed_` set exactly when
the retained tail reached the capacity. -/
theorem autofeed_shape {cap : Nat} {s : AutoState} {chunk : List Char} {s2 : AutoState}
    {evs : List Event} (h : autofeed cap s chunk = some (s2, evs)) :
    (s.failed = true ∧ s2 = s ∧ evs = []) ∨
    (s.failed = false ∧ s2.failed = decide (cap ≤ s2.nextOffset)) := by
  cases hf : s.failed with
  | true =>
    left
    simp [autofeed, hf] at h
    exact ⟨rfl, h.1.symm, h.2⟩

  | false =>
    right
    refine ⟨rfl, ?_⟩
    simp only [autofeed, hf, Bool.false_eq_true, if_false] at h
    cases hE : feed (listWrite s.buffer s.nextOffset chunk) (chunk.length + s.nextOffset)
        s.nextOffset s.js with
    | none => rw [hE] at h; exact absurd h (by simp)
    | some res =>
      obtain ⟨js1, evs1, tr⟩ := res
      rw [hE] at h
      by_cases htr : tr ≤ chunk.length + s.nextOffset
      · simp only [htr, if_true] at h
        injection h with h2
        injection h2 with hs2 hevs
        subst hs2
        rfl
      · simp [htr] at h

/-- C6. Overflow is permanent and atomic until reset: a feed that leaves a
retained tail of at least `cap` bytes leaves `failed_` set; every feed call
in the failed state is a complete no-op returning the state unchanged with
no events; and `reset` (and nothing `feed` does) clears the carry length
and the failure flag. -/
theorem c6_overflow_sticky (cap : Nat) (s : AutoState) (chunk : List Char) :
    (s.failed = true → autofeed cap s chunk = some (s, [])) ∧
    (∀ s2 evs, autofeed cap s chunk = some (s2, evs) → cap ≤ s2.nextOffset →
      s2.failed = true) ∧
    (∀ s2 evs, autofeed cap s chunk = some (s2, evs) → s.failed = true →
      s2 = s ∧ evs = []) ∧
    ((autoReset s).nextOffset = 0 ∧ (autoReset s).failed = false) := by
  refine ⟨fun hf => by simp [autofeed, hf], ?_, ?_, rfl, rfl⟩
  · intro s2 evs h hcap
    rcases autofeed_shape h with ⟨hf, hs2, -⟩ | ⟨-, hflag⟩
    · rw [hs2]; exact hf
    · rw [hflag]; exact decide_eq_true hcap
  · intro s2 evs h hf
    rcases autofeed_shape h with ⟨-, hs2, hevs⟩ | ⟨hnf, -⟩
    · exact ⟨hs2, hevs⟩
    · rw [hf] at hnf; exact absurd hnf (by simp)

/-- C6 witness: a concrete failed assembler ignores further input. -/
theorem c6_witness :
    autofeed 2 { buffer := ['x', 'y'], nextOffset := 2, failed := true, js := initSJ } ['z'] =
      some ({ buffer := ['x', 'y'], nextOffset := 2, failed := true, js := initSJ }, []) :=
  (c6_overflow_sticky 2 _ ['z']).1 rfl

/-- Reads at positions below `n` only depend on the first `n` elements. -/
theorem getD_eq_of_take_eq {d1 d2 : List Char} {n : Nat}
    (h : d1.take n = d2.take n) {i : Nat} (hi : i < n) (a : Char) :
    d1.getD i a = d2.getD i a := by
  rw [List.getD_eq_getElem?_getD, List.getD_eq_getElem?_getD]
  have h1 : (d1.take n)[i]? = (d2.take n)[i]? := by rw [h]
  rw [List.getElem?_take, List.getElem?_take, if_pos hi, if_pos hi] at h1
  rw [h1]

/-- An in-bounds default read is the element itself. -/
theorem getD_eq_getElem {l : List Char} {i : Nat} (hi : i < l.length) (a : Char) :
    l.getD i a = l[i] := by
  rw [List.getD_eq_getElem?_getD, List.getElem?_eq_getElem hi]
  rfl

/-- The matching loop on a bracket-free pattern is exactly character-wise
prefix compatibility: it walks both strings in lockstep, treats `*` as a
one-character wildcard, and stops with a match as soon as either string is
exhausted. -/
theorem fmLoop_no_bracket (f q : List Char) (hf : '[' ∉ f) :
    ∀ fuel fi qi, f.length - fi ≤ fuel →
      fmLoop f q fuel fi qi = some (prefixCompat (f.drop fi) (q.drop qi)) := by
  intro fuel
  induction fuel with
  | zero =>
    intro fi qi hfu
    rw [List.drop_eq_nil_of_le (by omega)]
    rfl
  | succ fuel ih =>
    intro fi qi hfu
    by_cases hcond : fi < f.length ∧ qi < q.length
    · obtain ⟨hfi, hqi⟩ := hcond
      have hfc : f.getD fi nulChar = f[fi] := getD_eq_getElem hfi _
      have hqc : q.getD qi nulChar = q[qi] := getD_eq_getElem hqi _
      have hnotbr : f[fi] ≠ '[' := fun he => hf (he ▸ List.getElem_mem hfi)
      rw [List.drop_eq_getElem_cons hfi, List.drop_eq_getElem_cons hqi]
      simp only [fmLoop, if_pos (And.intro hfi hqi)]
      rw [if_neg (fun hand => hnotbr (hfc ▸ hand.1))]
      by_cases hcmp : f.getD fi nulChar = q.getD qi nulChar ∨ f.getD fi nulChar = '*'
      · rw [if_pos hcmp, ih (fi + 1) (qi + 1) (by omega)]
        have hcmp2 : f[fi] = q[qi] ∨ f[fi] = '*' := by
          rw [← hfc, ← hqc]; exact hcmp
        simp only [prefixCompat, decide_eq_true hcmp2, Bool.true_and]
      · rw [if_neg hcmp]
        have hcmp2 : ¬(f[fi] = q[qi] ∨ f[fi] = '*') := by
          rw [← hfc, ← hqc]; exact hcmp
        simp only [prefixCompat, decide_eq_false hcmp2, Bool.false_and]
    · simp only [fmLoop, if_neg hcond]
      rcases Nat.lt_or_ge fi f.length with hlt | hge
      · have hq : q.length ≤ qi := by
          by_contra hq
          exact hcond ⟨hlt, by omega⟩
        rw [List.drop_eq_nil_of_le hq]
        cases f.drop fi <;> rfl
      · rw [List.drop_eq_nil_of_le hge]
        rfl

/-- C2 amended. The matcher of `FilterListener::on_value` is not
segment-wise with simultaneous exhaustion: on every bracket-free pattern it
computes character-wise prefix compatibility (`*` matches any single
character, comparison stops when either string ends, mismatch
short-circuits to no match); consequently `a.*` matches `a.b` and also the
longer `a.b.c` and the shorter `a`, while a first-character mismatch like
`b` does not match. -/
theorem c2_prefix_match_semantics :
    (∀ f q, '[' ∉ f → filterMatches f q = some (prefixCompat f q)) ∧
    filterMatches "a.*".toList "a.b".toList = some true ∧
    filterMatches "a.*".toList "a".toList = some true ∧
    filterMatches "a.*".toList "a.b.c".toList = some true ∧
    filterMatches "a.*".toList "b".toList = some false := by
  refine ⟨?_, by decide, by decide, by decide, by decide⟩
  intro f q hf
  have h := fmLoop_no_bracket f q hf f.length 0 0 (by omega)
  rw [List.drop_zero, List.drop_zero] at h
  exact h

/-- C2 witness: the bracket-free characterisation applied at a concrete
pattern and query. -/
theorem c2_witness :
    filterMatches "a.*".toList "a.zz".toList =
      some (prefixCompat "a.*".toList "a.zz".toList) :=
  c2_prefix_match_semantics.1 _ _ (by decide)

/-- A list member that fails the predicate survives `dropWhile`. -/
theorem mem_dropWhile_of_mem {l : List Char} {c : Char} {p : Char → Bool}
    (hm : c ∈ l) (hp : p c = false) : c ∈ l.dropWhile p := by
  rw [← List.takeWhile_append_dropWhile p l] at hm
  rcases List.mem_append.mp hm with h | h
  · exact absurd (List.mem_takeWhile_imp h) (by simp [hp])
  · exact h

/-- Truncation of an integer-valued rational is that integer. -/
theorem ratTrunc_intCast (n : ℤ) : ratTrunc (n : ℚ) = n := by
  unfold ratTrunc
  rw [Rat.num_intCast, Rat.den_intCast]
  exact Int.tdiv_one n

/-- The scan loop of `parse_number` preserves the numeric invariant, and
once a `-` has been scanned (or the flag was already set) the final
accumulator's negative flag is set. -/
theorem numScan_inv : ∀ (l : List Char) (acc acc2 : NumAcc),
    numScan l acc = some acc2 → NumInv acc →
    NumInv acc2 ∧ (('-' ∈ l ∨ acc.negative = true) → acc2.negative = true) := by
  intro l
  induction l with
  | nil =>
    intro acc acc2 h hinv
    injection h with h
    subst h
    refine ⟨hinv, fun hneg => ?_⟩
    rcases hneg with h | h
    · exact absurd h (by simp)
    · exact h
  | cons c cs ih =>
    intro acc acc2 h hinv
    rw [numScan] at h
    cases hst : numStep acc c with
    | none => rw [hst] at h; exact absurd h (by simp)
    | some acc1 =>
      rw [hst] at h
      obtain ⟨hn0, hp0, hint⟩ := hinv
      unfold numStep at hst
      split_ifs at hst with h1 h2 h3 h4 h5
      · -- c = '-': negative flag set
        injection hst with hst
        subst hst
        obtain ⟨hinv2, hnegt⟩ := ih _ _ h ⟨hn0, hp0, hint⟩
        exact ⟨hinv2, fun _ => hnegt (Or.inr rfl)⟩
      · -- c = '.': decimal flag set
        injection hst with hst
        subst hst
        obtain ⟨hinv2, hnegt⟩ := ih _ _ h ⟨hn0, hp0, fun hcontra => absurd hcontra (by simp)⟩
        refine ⟨hinv2, fun hneg => hnegt ?_⟩
        rcases hneg with hm | hb
        · rcases List.mem_cons.mp hm with he | hm2
          · exact absurd he.symm (h2 ▸ by decide)
          · exact Or.inl hm2
        · exact Or.inr hb
      · -- digit in decimal mode
        injection hst with hst
        subst hst
        obtain ⟨hinv2, hnegt⟩ := ih _ _ h
          ⟨add_nonneg hn0 (mul_nonneg (Nat.cast_nonneg _) hp0),
           mul_nonneg hp0 (by norm_num),
           fun hcontra => absurd hcontra (by simp [h4])⟩
        refine ⟨hinv2, fun hneg => hnegt ?_⟩
        rcases hneg with hm | hb
        · rcases List.mem_cons.mp hm with he | hm2
          · exact absurd (he ▸ h3) (by decide)
          · exact Or.inl hm2
        · exact Or.inr hb
      · -- digit in integer mode
        injection hst with hst
        subst hst
        have hdec : acc.decimal = false := by
          cases hd : acc.decimal
          · rfl
          · exact absurd hd h4
        obtain ⟨m, hm⟩ := hint hdec
        obtain ⟨hinv2, hnegt⟩ := ih _ _ h
          ⟨by
            have : (0 : ℚ) ≤ digitVal c := Nat.cast_nonneg _
            have h10 : (0 : ℚ) ≤ acc.number * 10 := by positivity
            simpa using add_nonneg h10 this,
           hp0,
           fun _ => ⟨m * 10 + (c.toNat - '0'.toNat), by
            simp only [hm, digitVal]
            push_cast
            ring⟩⟩
        refine ⟨hinv2, fun hneg => hnegt ?_⟩
        rcases hneg with hm2 | hb
        · rcases List.mem_cons.mp hm2 with he | hm3
          · exact absurd (he ▸ h3) (by decide)
          · exact Or.inl hm3
        · exact Or.inr hb
      · -- space: skipped
        injection hst with hst
        subst hst
        obtain ⟨hinv2, hnegt⟩ := ih _ _ h ⟨hn0, hp0, hint⟩
        refine ⟨hinv2, fun hneg => hnegt ?_⟩
        rcases hneg with hm | hb
        · rcases List.mem_cons.mp hm with he | hm2
          · exact absurd he.symm (h5 ▸ by decide)
          · exact Or.inl hm2
        · exact Or.inr hb

unseal Rat.add Rat.mul Rat.inv in
/-- C7 amended. A `-` byte at any position of the scanned span sets the
negative flag, so the parsed value is the negation of the accumulated
(non-negative) magnitude — hence never positive, and zero when no nonzero
digit was accumulated; embedded spaces are skipped without rejection:
`1-2` classifies as Integer -12 and `1 2` as Integer 12. -/
theorem c7_minus_nonpositive :
    (∀ data size v, parse_number data size = some v → '-' ∈ data.take size →
      jvNonpos v = true) ∧
    classify "1-2".toList 3 = JsonValue.integer (-12) ∧
    classify "1 2".toList 3 = JsonValue.integer 12 := by
  refine ⟨?_, by decide, by decide⟩
  intro data size v h hmem
  unfold parse_number at h
  cases hscan : numScan (spanChars data size) numInit with
  | none => rw [hscan] at h; exact absurd h (by simp)
  | some acc =>
    rw [hscan] at h
    dsimp only at h
    have hmem2 : '-' ∈ spanChars data size := mem_dropWhile_of_mem hmem (by decide)
    obtain ⟨⟨hn0, hp0, hint⟩, hnegf⟩ := numScan_inv _ _ _ hscan
      ⟨le_refl 0, by norm_num [numInit], fun _ => ⟨0, rfl⟩⟩
    have hneg : acc.negative = true := hnegf (Or.inl hmem2)
    rw [hneg] at h
    by_cases hdec : acc.decimal = true
    · rw [if_pos hdec] at h
      simp only [if_true] at h
      injection h with h
      subst h
      simp only [jvNonpos, decide_eq_true_eq]
      exact neg_nonpos.mpr hn0
    · rw [if_neg hdec] at h
      simp only [if_true] at h
      injection h with h
      subst h
      obtain ⟨m, hm⟩ := hint (by
        cases hd : acc.decimal
        · rfl
        · exact absurd hd hdec)
      simp only [jvNonpos, decide_eq_true_eq]
      rw [hm]
      have : -((m : ℕ) : ℚ) = (((-(m : ℤ)) : ℤ) : ℚ) := by push_cast; ring
      rw [this, ratTrunc_intCast]
      exact neg_nonpos.mpr (Int.natCast_nonneg m)

unseal Rat.add Rat.mul Rat.inv in
/-- C7 witness: the non-positivity theorem applied at the concrete span
`1-2`, which parses to Integer -12. -/
theorem c7_witness : jvNonpos (JsonValue.integer (-12)) = true :=
  c7_minus_nonpositive.1 "1-2".toList 3 (JsonValue.integer (-12)) (by decide) (by decide)

/-- On a span of only minus, dot and space characters the numeric scan
succeeds, accumulates nothing, and ends with the decimal flag set exactly
when a dot occurs (or it was already set). -/
theorem numScan_signs_only : ∀ (l : List Char) (acc : NumAcc),
    (∀ c ∈ l, c = '-' ∨ c = '.' ∨ c = ' ') →
    ∃ acc2, numScan l acc = some acc2 ∧ acc2.number = acc.number ∧
      acc2.decimal = (acc.decimal || decide ('.' ∈ l)) := by
  intro l
  induction l with
  | nil => intro acc _; exact ⟨acc, rfl, rfl, by simp⟩
  | cons c cs ih =>
    intro acc hchars
    have hcs : ∀ x ∈ cs, x = '-' ∨ x = '.' ∨ x = ' ' :=
      fun x hx => hchars x (List.mem_cons_of_mem _ hx)
    rcases hchars c (List.mem_cons_self c cs) with hc | hc | hc <;> subst hc
    · obtain ⟨acc2, hs, hnum, hdec⟩ := ih { acc with negative := true } hcs
      refine ⟨acc2, ?_, hnum, ?_⟩
      · rw [numScan, show numStep acc '-' = some { acc with negative := true } from rfl]
        exact hs
      · rw [hdec]
        simp [List.mem_cons]
    · obtain ⟨acc2, hs, hnum, hdec⟩ := ih { acc with decimal := true } hcs
      refine ⟨acc2, ?_, hnum, ?_⟩
      · rw [numScan, show numStep acc '.' = some { acc with decimal := true } from rfl]
        exact hs
      · rw [hdec]
        simp [List.mem_cons]
    · obtain ⟨acc2, hs, hnum, hdec⟩ := ih acc hcs
      refine ⟨acc2, ?_, hnum, ?_⟩
      · rw [numScan, show numStep acc ' ' = some acc from rfl]
        exact hs
      · rw [hdec]
        simp [List.mem_cons]

/-- `parse_string` fails when no character strictly inside the span is a
quote: only the extra byte at index `size` can be one, and a string needs
an opening and a closing quote. -/
theorem parse_string_none_of_no_quote {data : List Char} {size : Nat}
    (hsz : size ≤ data.length)
    (h : ∀ c ∈ data.take size, c ≠ '"') : parse_string data size = none := by
  unfold parse_string
  cases hf : (List.range (size + 1)).find? (fun i => data.getD i nulChar == '"') with
  | none => rfl
  | some i1 =>
    have hp : data.getD i1 nulChar = '"' := by simpa using List.find?_some hf
    have hmem : i1 < size + 1 := List.mem_range.mp (List.mem_of_find?_eq_some hf)
    have hi1 : i1 = size := by
      by_contra hne
      have hlt : i1 < size := by omega
      have hlt2 : i1 < data.length := lt_of_lt_of_le hlt hsz
      have htk : i1 < (data.take size).length := by
        rw [List.length_take]; omega
      have hmem2 : data[i1] ∈ data.take size := by
        have := List.getElem_mem htk
        rwa [List.getElem_take] at this
      exact h _ hmem2 (by rwa [getD_eq_getElem hlt2] at hp)
    subst hi1
    simp

/-- C8. Digitless spans are classified as numbers: any span (within the
buffer) holding only `-`, `.` and space characters — including the empty
span — passes the numeric parse with accumulator zero, so the classifier
returns Integer 0, or Float 0 when a dot is present. -/
theorem c8_digitless_zero (data : List Char) (size : Nat) (hsz : size ≤ data.length)
    (hchars : ∀ c ∈ data.take size, c = '-' ∨ c = '.' ∨ c = ' ') :
    classify data size =
      if '.' ∈ data.take size then JsonValue.floating 0 else JsonValue.integer 0 := by
  have hs : parse_string data size = none :=
    parse_string_none_of_no_quote hsz (fun c hc => by
      rcases hchars c hc with h | h | h <;> subst h <;> decide)
  have hspan : ∀ c ∈ spanChars data size, c = '-' ∨ c = '.' ∨ c = ' ' := fun c hc =>
    hchars c ((List.dropWhile_sublist _).mem hc)
  obtain ⟨acc2, hscan, hnum, hdec⟩ := numScan_signs_only (spanChars data size) numInit hspan
  have hmemiff : ('.' ∈ spanChars data size) ↔ ('.' ∈ data.take size) :=
    ⟨fun h => (List.dropWhile_sublist _).mem h,
     fun h => mem_dropWhile_of_mem h (by decide)⟩
  unfold classify
  rw [hs]
  unfold parse_number
  rw [hscan]
  dsimp only
  by_cases hm : '.' ∈ data.take size
  · rw [if_pos hm, hdec]
    have hsp : decide ('.' ∈ spanChars data size) = true := decide_eq_true (hmemiff.mpr hm)
    rw [hsp]
    simp only [Bool.or_true, if_true]
    rw [hnum]
    cases hneg : acc2.negative <;> simp [numInit]
  · rw [if_neg hm, hdec]
    have hsp : decide ('.' ∈ spanChars data size) = false :=
      decide_eq_false (fun hcc => hm (hmemiff.mp hcc))
    rw [hsp]
    simp only [Bool.or_false]
    rw [hnum]
    have hdecinit : numInit.decimal = false := rfl
    rw [hdecinit]
    simp only [Bool.false_eq_true, if_false]
    have hzero : ∀ b : Bool, (if b = true then -numInit.number else numInit.number) = 0 := by
      intro b
      cases b <;> simp [numInit]
    rw [hzero]
    have : ratTrunc 0 = 0 := by
      unfold ratTrunc
      simp [Int.zero_tdiv]
    rw [this]

/-- C8 witness: the theorem applied at the concrete span `-. ` (minus,
dot, space), which classifies as Float 0. -/
theorem c8_witness : classify ['-', '.', ' '] 3 = JsonValue.floating 0 := by
  have h := c8_digitless_zero ['-', '.', ' '] 3 (by decide) (by decide)
  rw [if_pos (by decide)] at h
  exact h

/-- `find?` only depends on the predicate's values on the list. -/
theorem find?_congr_aux : ∀ (l : List Nat) (p1 p2 : Nat → Bool),
    (∀ x ∈ l, p1 x = p2 x) → l.find? p1 = l.find? p2 := by
  intro l
  induction l with
  | nil => intro _ _ _; rfl
  | cons a as ih =>
    intro p1 p2 h
    rw [List.find?_cons, List.find?_cons, h a (List.mem_cons_self a as)]
    cases p2 a
    · exact ih p1 p2 (fun x hx => h x (List.mem_cons_of_mem _ hx))
    · rfl

/-- The string parse scans indices `0..size` inclusive, so it is determined
by the first `size + 1` bytes. -/
theorem parse_string_frame {d1 d2 : List Char} {size : Nat}
    (h : d1.take (size + 1) = d2.take (size + 1)) :
    parse_string d1 size = parse_string d2 size := by
  unfold parse_string
  have hc1 : ∀ i ∈ List.range (size + 1),
      (d1.getD i nulChar == '"') = (d2.getD i nulChar == '"') := by
    intro i hi
    rw [getD_eq_of_take_eq h (List.mem_range.mp hi)]
  rw [find?_congr_aux _ _ _ hc1]
  cases hf : (List.range (size + 1)).find? (fun i => d2.getD i nulChar == '"') with
  | none => rfl
  | some i1 =>
    dsimp only
    have hc2 : ∀ i ∈ List.range' (i1 + 1) (size - i1),
        (d1.getD i nulChar == '"') = (d2.getD i nulChar == '"') := by
      intro i hi
      obtain ⟨k, hk, he⟩ := List.mem_range'.mp hi
      rw [getD_eq_of_take_eq h (by omega)]
    rw [find?_congr_aux _ _ _ hc2]
    cases hg : (List.range' (i1 + 1) (size - i1)).find? (fun i => d2.getD i nulChar == '"') with
    | none => rfl
    | some i2 =>
      dsimp only
      obtain ⟨k, hk, he⟩ := List.mem_range'.mp (List.mem_of_find?_eq_some hg)
      have h1 : (d1.drop (i1 + 1)).take (size - i1) = (d2.drop (i1 + 1)).take (size - i1) := by
        have hdt := congrArg (List.drop (i1 + 1)) h
        rwa [List.drop_take, List.drop_take, show size + 1 - (i1 + 1) = size - i1 from by omega]
          at hdt
      have e1 : ∀ d : List Char, (d.drop (i1 + 1)).take (i2 - i1 - 1) =
          ((d.drop (i1 + 1)).take (size - i1)).take (i2 - i1 - 1) := by
        intro d
        rw [List.take_take, inf_eq_left.mpr (by omega : i2 - i1 - 1 ≤ size - i1)]
      rw [e1 d1, e1 d2, h1]

/-- The whole classifier is determined by the first `size + 1` bytes. -/
theorem classify_frame {d1 d2 : List Char} {size : Nat}
    (h : d1.take (size + 1) = d2.take (size + 1)) :
    classify d1 size = classify d2 size := by
  have hts : d1.take size = d2.take size := by
    have h2 := congrArg (List.take size) h
    rw [List.take_take, List.take_take] at h2
    rwa [inf_eq_left.mpr (by omega : size ≤ size + 1)] at h2
  have hspan : spanChars d1 size = spanChars d2 size := by
    unfold spanChars
    rw [hts]
  unfold classify parse_number parse_boolean
  rw [parse_string_frame h, hspan]

/-- C9. The scalar classifier reads one byte past the declared span:
classification is determined by the first `size + 1` bytes of memory (the
`parse_string` scan runs to index `size` inclusive), and the result really
can depend on that extra byte — two buffers agreeing on the span's `size`
bytes but differing at index `size` classify differently. -/
theorem c9_reads_one_past :
    (∀ d1 d2 size, d1.take (size + 1) = d2.take (size + 1) →
      classify d1 size = classify d2 size) ∧
    (List.take 1 ['"', '"'] = List.take 1 ['"', 'x'] ∧
      classify ['"', '"'] 1 ≠ classify ['"', 'x'] 1) :=
  ⟨fun _ _ _ h => classify_frame h, by decide, by decide⟩

/-- C9 witness: the frame theorem applied to two concrete buffers agreeing
on their first two bytes. -/
theorem c9_witness : classify ['"', '"', 'q'] 1 = classify ['"', '"', 'r'] 1 :=
  c9_reads_one_past.1 _ _ 1 (by decide)

/-- One step of the byte loop keeps the pending-value start within any
bound that covers the entry value and the next byte position: every branch
leaves `value_start_` unchanged, clears it, or anchors it at `i` or `i+1`. -/
theorem stepChar_valueStart_le {buffer : List Char} {i : Nat} {s s2 : SJState}
    {evs : List Event} {B : Nat} (h : stepChar buffer i s = some (s2, evs))
    (hs : ∀ v, s.valueStart = some v → v ≤ B) (hi : i + 1 ≤ B) :
    ∀ v, s2.valueStart = some v → v ≤ B := by
  simp only [stepChar] at h
  repeat' split at h
  all_goals try exact Option.noConfusion h
  all_goals injection h with h'
  all_goals injection h' with ha hb
  all_goals subst ha
  all_goals intro v hv
  all_goals dsimp only at hv
  all_goals
    first
      | exact hs v hv
      | exact Option.noConfusion hv
      | (injection hv with hv2; omega)

/-- The byte loop keeps the pending-value start within the buffer's filled
size. -/
theorem feedGo_valueStart_le {buffer : List Char} {size : Nat} :
    ∀ (r i : Nat) (s s2 : SJState) (evs : List Event),
      feedGo buffer r i s = some (s2, evs) → i + r ≤ size →
      (∀ v, s.valueStart = some v → v ≤ size) →
      (∀ v, s2.valueStart = some v → v ≤ size) := by
  intro r
  induction r with
  | zero =>
    intro i s s2 evs h _ hs
    simp only [feedGo] at h
    injection h with h'
    injection h' with ha hb
    subst ha
    exact hs
  | succ r ih =>
    intro i s s2 evs h hle hs
    rw [feedGo] at h
    cases h1 : stepChar buffer i s with
    | none => rw [h1] at h; exact Option.noConfusion h
    | some p =>
      obtain ⟨s1, evs1⟩ := p
      rw [h1] at h
      dsimp only at h
      cases h2 : feedGo buffer r (i + 1) s1 with
      | none => rw [h2] at h; exact Option.noConfusion h
      | some p2 =>
        obtain ⟨s3, evs2⟩ := p2
        rw [h2] at h
        dsimp only at h
        injection h with h'
        injection h' with ha hb
        subst ha
        exact ih (i + 1) s1 s3 evs2 h2 (by omega)
          (stepChar_valueStart_le h1 hs (by omega))

/-- The `allow_to_remove` returned by `feed` never exceeds the buffer's
filled size, provided any pending-value start surviving an offset-zero
entry lies within the new data. -/
theorem feed_toRemove_le {buffer : List Char} {size offset : Nat} {s s2 : SJState}
    {evs : List Event} {tr : Nat} (h : feed buffer size offset s = some (s2, evs, tr))
    (hoff : offset ≤ size)
    (hentry : offset = 0 → ∀ v, s.valueStart = some v → v ≤ size) :
    tr ≤ size := by
  simp only [feed] at h
  cases hg : feedGo buffer (size - offset) offset
      (if offset ≠ 0 then { s with valueStart := some 0, valueSize := offset - 1 } else s) with
  | none => rw [hg] at h; exact Option.noConfusion h
  | some p =>
    obtain ⟨s1, evs1⟩ := p
    rw [hg] at h
    dsimp only at h
    injection h with h'
    injection h' with ha hb
    injection hb with hb1 hb2
    have hbound : ∀ v, s1.valueStart = some v → v ≤ size := by
      refine feedGo_valueStart_le (size - offset) offset _ s1 evs1 hg (by omega) ?_
      by_cases ho : offset = 0
      · rw [if_neg (fun hc => hc ho)]
        exact hentry ho
      · rw [if_pos ho]
        intro v hv
        injection hv with hv2
        omega
    cases hvs : s1.valueStart with
    | none =>
      rw [hvs] at hb2
      dsimp only at hb2
      omega
    | some v =>
      rw [hvs] at hb2
      dsimp only at hb2
      rw [← hb2]
      exact hbound v hvs

/-- The small-chunk sufficiency that does hold: bounded writes for
`next_offset_ + size < cap` require the entry state's pending-value start
(when the call resumes at offset zero) to lie within the new data — a
condition a fresh assembler satisfies, but which reachable states with a
stale `value_start_` (claim C1's bug) violate. -/
theorem autofeedWriteOk_of_entry (cap : Nat) (s : AutoState) (chunk : List Char)
    (hnf : s.failed = false)
    (hentry : s.nextOffset = 0 → ∀ v, s.js.valueStart = some v → v ≤ chunk.length)
    (hlt : s.nextOffset + chunk.length < cap) :
    autofeedWriteOk cap s chunk = true := by
  unfold autofeedWriteOk
  simp only [hnf, Bool.false_eq_true, if_false, Bool.and_eq_true, decide_eq_true_eq]
  refine ⟨by omega, ?_⟩
  cases hE : feed (listWrite s.buffer s.nextOffset chunk) (chunk.length + s.nextOffset)
      s.nextOffset s.js with
  | none => rfl
  | some res =>
    obtain ⟨js1, evs1, tr⟩ := res
    have htr : tr ≤ chunk.length + s.nextOffset := by
      refine feed_toRemove_le hE (by omega) ?_
      intro ho v hv
      have := hentry ho v hv
      omega
    dsimp only
    simp only [Bool.and_eq_true, decide_eq_true_eq]
    exact ⟨htr, by omega⟩

/-- C10 amended. The writes of `AutofeedStreamJson::feed` are not bounded
for all chunk sizes, and `next_offset_ + size` fitting the capacity is
necessary but not sufficient: (1) every call whose writes all land in the
`cap`-byte carry buffer satisfies `next_offset_ + size ≤ cap`; (2) from a
fresh assembler a chunk with `size < cap` does keep every write in bounds;
(3) the capacity check runs only after the writes — an oversized call
(three bytes into a two-byte buffer) writes out of bounds, still delivers
its events, and only then sets `failed_`; (4) that bound is not sufficient
at reachable states: after feeding `{"a":` (which leaves a stale pending
`value_start_` at offset 5, claim C1's bug) the assembler has
`next_offset_ = 0` and is not failed, yet a one-byte chunk — with
`next_offset_ + size = 1 < 16` — makes `feed` return `to_remove = 5 > 1`,
so the `size_t` length `size - to_remove + 1` of the tail `memmove` wraps
and the copy writes out of bounds. -/
theorem c10_bounded_writes :
    (∀ cap (s : AutoState) (chunk : List Char), s.failed = false →
      autofeedWriteOk cap s chunk = true → s.nextOffset + chunk.length ≤ cap) ∧
    (∀ cap (chunk : List Char), chunk.length < cap →
      autofeedWriteOk cap (autoInit cap) chunk = true) ∧
    (autofeedWriteOk 2 (autoInit 2) ['[', 'a', 'b'] = false ∧
      (autofeed 2 (autoInit 2) ['[', 'a', 'b']).map (fun r => (r.1.failed, r.2)) =
        some (true, [Event.arrayStart])) ∧
    ((autofeed 16 (autoInit 16) chunkA).map
        (fun r => (r.1.failed, r.1.nextOffset, autofeedWriteOk 16 r.1 ['x'])) =
      some (false, 0, false)) := by
  refine ⟨?_, ?_, ⟨by decide, by decide⟩, by decide⟩
  · intro cap s chunk hnf h
    unfold autofeedWriteOk at h
    simp only [hnf, Bool.false_eq_true, if_false, Bool.and_eq_true, decide_eq_true_eq] at h
    exact h.1
  · intro cap chunk hlt
    exact autofeedWriteOk_of_entry cap (autoInit cap) chunk rfl
      (fun _ v hv => Option.noConfusion hv) (by show 0 + chunk.length < cap; omega)

/-- C10 witness: the fresh-assembler sufficiency conjunct applied to a
one-byte chunk into an eight-byte assembler. -/
theorem c10_witness : autofeedWriteOk 8 (autoInit 8) ['{'] = true :=
  c10_bounded_writes.2.1 8 ['{'] (by decide)

/-- C3 amended. For every byte arriving while the nesting stack is
NON-empty (and with the pending-value pointer consistent with the flags),
`StreamJson::feed`'s dispatch succeeds — no error, no crash — and a closing
brace or bracket whose type does not match the stack top pops nothing and
emits no end event (no diagnostic either). On an EMPTY stack, however, a
quote, closer or comma reads `state_stack_.back()` out of bounds
(`c3_counterexample`). -/
theorem c3_nonempty_stack_defensive (buffer : List Char) (i : Nat) (s : SJState)
    (hne : s.stack ≠ [])
    (hac : s.afterColon = true → s.valueStart ≠ none)
    (hstr : s.stack.head? = some StState.inString → s.valueStart ≠ none) :
    ∃ s2 evs, stepChar buffer i s = some (s2, evs) ∧
      (get_token (buffer.getD i nulChar) = Token.objectEnd →
        s.stack.head? ≠ some StState.inObject →
        s2.stack = s.stack ∧ Event.objectEnd ∉ evs) ∧
      (get_token (buffer.getD i nulChar) = Token.arrayEnd →
        s.stack.head? ≠ some StState.inArray →
        s2.stack = s.stack ∧ Event.arrayEnd ∉ evs) := by
  obtain ⟨stk, afc, vst, vsz⟩ := s
  simp only at hne hac hstr ⊢
  cases stk with
  | nil => exact absurd rfl hne
  | cons top rest =>
    cases ht : get_token (buffer.getD i nulChar) <;> cases top <;> cases afc <;> cases vst <;>
      first
      | exact absurd rfl (hac rfl)
      | exact absurd rfl (hstr rfl)
      | (refine ⟨_, _, by
            simp only [stepChar, ← List.getD_eq_getElem?_getD, ht]; rfl, ?_, ?_⟩ <;>
           (intro hpre hpre2
            first
            | exact Token.noConfusion hpre
            | exact absurd rfl hpre2
            | exact ⟨rfl, by simp⟩))

/-- C3 witness: the defensive-dispatch theorem applied to a closing brace
arriving on the non-empty, non-matching stack `[IN_ARRAY]`: the step
succeeds, pops nothing, and emits no object-end event. -/
theorem c3_witness :
    ∃ s2 evs, stepChar ['}'] 0 ⟨[StState.inArray], false, none, 0⟩ = some (s2, evs) ∧
      (get_token (List.getD ['}'] 0 nulChar) = Token.objectEnd →
        ([StState.inArray] : List StState).head? ≠ some StState.inObject →
        s2.stack = [StState.inArray] ∧ Event.objectEnd ∉ evs) ∧
      (get_token (List.getD ['}'] 0 nulChar) = Token.arrayEnd →
        ([StState.inArray] : List StState).head? ≠ some StState.inArray →
        s2.stack = [StState.inArray] ∧ Event.arrayEnd ∉ evs) :=
  c3_nonempty_stack_defensive ['}'] 0 ⟨[StState.inArray], false, none, 0⟩
    (by decide) (by decide) (by decide)
